import Mathlib

/-!
Verification of the DVID versioned-datastore core against its sources.

The datastore component (version DAG, dataset registry) ships only its test
file `datastore/dataset_test.go` in this tree, so its operations are modelled
from the specification, constrained by the assertions of that test.  The
multichan16 datatype (`datatype/multichan16/multichan16.go`) and the RPC
switchboard (`server/rpc.go`) are embedded directly from their sources.
-/

namespace Dvid

/-- Error kinds of the datastore core (spec section 7). -/
inductive DvidError where
  | UnknownVersion
  | AmbiguousUUID
  | NoMatch
  | VersionLocked
  deriving DecidableEq, Repr

instance {ε α : Type} [DecidableEq ε] [DecidableEq α] : DecidableEq (Except ε α)
  | .error e, .error f => decidable_of_iff (e = f) (by simp)
  | .error _, .ok _ => isFalse (by intro h; cases h)
  | .ok _, .error _ => isFalse (by intro h; cases h)
  | .ok a, .ok b => decidable_of_iff (a = b) (by simp)

/-- Modelled from the spec: one vertex of the version DAG (`Node` in
`datastore/dataset.go`, absent from this tree): VersionLocalID, UUID,
parent set, child set and a locked flag.  UUIDs are modelled as naturals
drawn from a globally unique supply. -/
structure Node where
  versionID : Nat
  uuid : Nat
  parents : List Nat
  children : List Nat
  locked : Bool
  deriving DecidableEq, Repr

/-- Modelled from the spec: the `VersionDAG` of `datastore/dataset.go`
(absent from this tree): the nodes of one dataset, the UUID-to-VersionLocalID
map, and the monotonic counter `NewVersionID` issuing the next local ID. -/
structure VersionDAG where
  newVersionID : Nat
  nodes : List Node
  versionMap : List (Nat × Nat)
  deriving DecidableEq, Repr

/-- Modelled from the spec: `NewVersionDAG()` of `datastore/dataset.go`
(absent from this tree) creates a DAG with a single unlocked root node.
The test `TestNewDAG` pins `dag.NewVersionID == 1`, `len(dag.Nodes) == 1`
and `len(dag.VersionMap) == 1` after creation, so the root receives
VersionLocalID 0 and the counter starts at 1.  The root UUID, random in
the source, is an explicit argument here. -/
def NewVersionDAG (rootUUID : Nat) : VersionDAG :=
  { newVersionID := 1
  , nodes := [{ versionID := 0, uuid := rootUUID, parents := [], children := [], locked := false }]
  , versionMap := [(rootUUID, 0)] }

/-- Resolve a UUID to its VersionLocalID through the DAG's VersionMap. -/
def VersionDAG.versionFromUUID (dag : VersionDAG) (uuid : Nat) : Option Nat :=
  (dag.versionMap.find? (fun p => p.1 == uuid)).map (fun p => p.2)

/-- Find the node holding a given VersionLocalID. -/
def VersionDAG.nodeByVersion (dag : VersionDAG) (vid : Nat) : Option Node :=
  dag.nodes.find? (fun n => n.versionID == vid)

/-- Modelled from the spec: `Lock(uuid)` marks the node immutable; it fails
with `UnknownVersion` when the UUID does not resolve. -/
def VersionDAG.Lock (dag : VersionDAG) (uuid : Nat) : Except DvidError VersionDAG :=
  match dag.versionFromUUID uuid with
  | none => .error .UnknownVersion
  | some vid =>
      .ok { dag with
            nodes := dag.nodes.map
              (fun n => if n.versionID = vid then { n with locked := true } else n) }

/-- Modelled from the spec: `IsLocked(uuid)`, the boolean query used by
write paths. -/
def VersionDAG.IsLocked (dag : VersionDAG) (uuid : Nat) : Except DvidError Bool :=
  match dag.versionFromUUID uuid with
  | none => .error .UnknownVersion
  | some vid =>
      match dag.nodeByVersion vid with
      | none => .error .UnknownVersion
      | some n => .ok n.locked

/-- Modelled from the spec: the guard every write path runs — mutation of a
locked version is rejected with `VersionLocked`. -/
def VersionDAG.checkWrite (dag : VersionDAG) (uuid : Nat) : Except DvidError Unit :=
  match dag.IsLocked uuid with
  | .error e => .error e
  | .ok true => .error .VersionLocked
  | .ok false => .ok ()

/-- Modelled from the spec: `NewVersion(parentUUID)` creates a child node of
the resolved parent, assigns it the next VersionLocalID, registers it in
`VersionMap` and `Nodes`, and bumps the counter.  It fails with
`UnknownVersion` when the parent does not resolve and does not require the
parent to be unlocked.  The child UUID, random in the source, is an explicit
argument here. -/
def VersionDAG.NewVersion (dag : VersionDAG) (childUUID parentUUID : Nat) :
    Except DvidError (Nat × VersionDAG) :=
  match dag.versionFromUUID parentUUID with
  | none => .error .UnknownVersion
  | some parentVid =>
      let vid := dag.newVersionID
      let child : Node :=
        { versionID := vid, uuid := childUUID, parents := [parentVid]
        , children := [], locked := false }
      .ok (vid,
        { newVersionID := vid + 1
        , nodes :=
            (dag.nodes.map (fun n =>
              if n.versionID = parentVid then { n with children := n.children ++ [vid] } else n))
            ++ [child]
        , versionMap := dag.versionMap ++ [(childUUID, vid)] })

/-- A well-formedness check: every VersionLocalID appearing in the
VersionMap is carried by some node. -/
def VersionDAG.wf (dag : VersionDAG) : Bool :=
  dag.versionMap.all (fun p => dag.nodes.any (fun n => n.versionID == p.2))

/-- A counter invariant: every node's VersionLocalID lies strictly below the
next-ID counter. -/
def VersionDAG.idsBelowCounter (dag : VersionDAG) : Bool :=
  dag.nodes.all (fun n => n.versionID < dag.newVersionID)

/-- Modelled from the spec: the datastore service state of
`datastore/dataset.go` and `datastore/datastore.go` (absent from this tree):
the counter issuing DatasetLocalIDs, the globally unique UUID supply
(random 128-bit values in the source, a fresh counter here), and the
datasets' DAGs keyed by DatasetLocalID. -/
structure Service where
  newDatasetID : Nat
  newUUID : Nat
  datasets : List (Nat × VersionDAG)
  deriving DecidableEq, Repr

/-- The service a freshly initialized datastore starts from. -/
def initService : Service := { newDatasetID := 0, newUUID := 0, datasets := [] }

/-- Modelled from the spec: `NewDataset()` allocates a new DatasetLocalID,
constructs a fresh VersionDAG whose root node carries a fresh UUID, and
returns (rootUUID, DatasetLocalID) along with the updated service. -/
def Service.NewDataset (s : Service) : Nat × Nat × Service :=
  (s.newUUID, s.newDatasetID,
    { newDatasetID := s.newDatasetID + 1
    , newUUID := s.newUUID + 1
    , datasets := s.datasets ++ [(s.newDatasetID, NewVersionDAG s.newUUID)] })

/-- Lock a UUID in the first dataset that resolves it, leaving the rest
untouched (service-level `Lock`). -/
def lockInDatasets (uuid : Nat) : List (Nat × VersionDAG) → List (Nat × VersionDAG)
  | [] => []
  | (id, dag) :: rest =>
      match dag.Lock uuid with
      | .ok dag' => (id, dag') :: rest
      | .error _ => (id, dag) :: lockInDatasets uuid rest

/-- Create a new version under the first dataset that resolves the parent
UUID; the boolean reports whether the fresh child UUID was consumed. -/
def newVersionInDatasets (childUUID parentUUID : Nat) :
    List (Nat × VersionDAG) → List (Nat × VersionDAG) × Bool
  | [] => ([], false)
  | (id, dag) :: rest =>
      match dag.NewVersion childUUID parentUUID with
      | .ok (_, dag') => ((id, dag') :: rest, true)
      | .error _ =>
          let (rest', used) := newVersionInDatasets childUUID parentUUID rest
          ((id, dag) :: rest', used)

/-- The operations whose sequences claim C1 quantifies over. -/
inductive DvidOp where
  | newDataset
  | newVersion (parentUUID : Nat)
  | lock (uuid : Nat)
  deriving DecidableEq, Repr

/-- Apply one service-level operation. -/
def Service.applyOp (s : Service) : DvidOp → Service
  | .newDataset => (s.NewDataset).2.2
  | .newVersion pu =>
      let (ds, used) := newVersionInDatasets s.newUUID pu s.datasets
      { s with datasets := ds, newUUID := if used then s.newUUID + 1 else s.newUUID }
  | .lock uuid => { s with datasets := lockInDatasets uuid s.datasets }

/-- Apply a sequence of service-level operations. -/
def Service.applyOps (s : Service) (ops : List DvidOp) : Service :=
  ops.foldl Service.applyOp s

/-- Run a sequence of `NewVersion` requests against one DAG, collecting the
VersionLocalIDs of the versions actually created.  Each request carries the
fresh child UUID and the parent UUID it names. -/
def VersionDAG.runNewVersions (dag : VersionDAG) :
    List (Nat × Nat) → List Nat × VersionDAG
  | [] => ([], dag)
  | (cu, pu) :: rest =>
      match dag.NewVersion cu pu with
      | .error _ => dag.runNewVersions rest
      | .ok (vid, dag') =>
          let (ids, dagF) := dag'.runNewVersions rest
          (vid :: ids, dagF)

/-- Run `NewDataset` a number of times, collecting (rootUUID, DatasetLocalID)
pairs in order. -/
def Service.runNewDatasets : Service → Nat → List (Nat × Nat) × Service
  | s, 0 => ([], s)
  | s, k + 1 =>
      let r := s.NewDataset
      let rest := r.2.2.runNewDatasets k
      ((r.1, r.2.1) :: rest.1, rest.2)

/-! ### Serialization of the DAG and the service state

Modelled from the spec: the entire DAG (Nodes, VersionMap, next-ID counter)
is serialized as one self-contained record (a gob-encoded byte record in the
source, absent from this tree); the record is modelled as a list of naturals.
-/

/-- Length-prefixed encoding of a list of naturals. -/
def encSeg (xs : List Nat) : List Nat := xs.length :: xs

/-- Decode a length-prefixed segment, returning it and the remainder. -/
def decSeg : List Nat → Option (List Nat × List Nat)
  | [] => none
  | k :: rest => if k ≤ rest.length then some (rest.take k, rest.drop k) else none

/-- Serialize one DAG node. -/
def encodeNode (n : Node) : List Nat :=
  n.versionID :: n.uuid :: (encSeg n.parents ++ encSeg n.children ++ [if n.locked then 1 else 0])

/-- Decode one DAG node, returning the remainder of the record. -/
def decodeNode : List Nat → Option (Node × List Nat)
  | v :: u :: rest =>
      match decSeg rest with
      | none => none
      | some (ps, r1) =>
          match decSeg r1 with
          | none => none
          | some (cs, r2) =>
              match r2 with
              | l :: r3 =>
                  some ({ versionID := v, uuid := u, parents := ps
                        , children := cs, locked := l == 1 }, r3)
              | [] => none
  | _ => none

/-- Decode a counted sequence of nodes. -/
def decodeNodes : Nat → List Nat → Option (List Node × List Nat)
  | 0, rest => some ([], rest)
  | k + 1, rest =>
      match decodeNode rest with
      | none => none
      | some (n, r1) =>
          match decodeNodes k r1 with
          | none => none
          | some (ns, r2) => some (n :: ns, r2)

/-- Decode a counted sequence of VersionMap entries. -/
def decodePairs : Nat → List Nat → Option (List (Nat × Nat) × List Nat)
  | 0, rest => some ([], rest)
  | k + 1, a :: b :: rest =>
      match decodePairs k rest with
      | none => none
      | some (ps, r1) => some ((a, b) :: ps, r1)
  | _ + 1, _ => none

/-- Serialize a whole VersionDAG as one self-contained record. -/
def serializeDAG (d : VersionDAG) : List Nat :=
  d.newVersionID :: d.nodes.length ::
    ((d.nodes.map encodeNode).flatten
      ++ d.versionMap.length :: (d.versionMap.map (fun p => [p.1, p.2])).flatten)

/-- Reload a VersionDAG from its serialized record. -/
def deserializeDAG (l : List Nat) : Option VersionDAG :=
  match l with
  | nv :: nn :: rest =>
      match decodeNodes nn rest with
      | none => none
      | some (ns, r1) =>
          match r1 with
          | nm :: r2 =>
              match decodePairs nm r2 with
              | some (vm, []) => some { newVersionID := nv, nodes := ns, versionMap := vm }
              | _ => none
          | [] => none
  | _ => none

/-- Serialize one dataset entry: its DatasetLocalID and its DAG record,
length-prefixed so entries concatenate unambiguously. -/
def encodeDataset (p : Nat × VersionDAG) : List Nat :=
  p.1 :: encSeg (serializeDAG p.2)

/-- Decode a counted sequence of dataset entries. -/
def decodeDatasets : Nat → List Nat → Option (List (Nat × VersionDAG) × List Nat)
  | 0, rest => some ([], rest)
  | k + 1, id :: rest =>
      match decSeg rest with
      | none => none
      | some (blob, r1) =>
          match deserializeDAG blob with
          | none => none
          | some dag =>
              match decodeDatasets k r1 with
              | none => none
              | some (ds, r2) => some ((id, dag) :: ds, r2)
  | _ + 1, [] => none

/-- Serialize the whole service state. -/
def serializeService (s : Service) : List Nat :=
  s.newDatasetID :: s.newUUID :: s.datasets.length
    :: (s.datasets.map encodeDataset).flatten

/-- Reload the service state from its serialized record. -/
def deserializeService (l : List Nat) : Option Service :=
  match l with
  | nd :: nu :: k :: rest =>
      match decodeDatasets k rest with
      | some (ds, []) => some { newDatasetID := nd, newUUID := nu, datasets := ds }
      | _ => none
  | _ => none

/-- Modelled from the spec: `DatasetsAllJSON` renders the description of all
datasets as a function of the datasets held by the service; two services
holding identical datasets render identical descriptions. -/
def datasetsAllJSON (s : Service) : List Nat :=
  s.datasets.length :: (s.datasets.map encodeDataset).flatten

/-! ### Spatial index encoding

`Channel.Index` (`datatype/multichan16/multichan16.go` lines 170-172) places
the channel number ahead of the spatial ZYX index:
`dvid.IndexCZYX{c.channelNum, dvid.IndexZYX(p)}`.  The byte serialization of
`IndexZYX`/`IndexCZYX` lives in the `dvid` package, absent from this tree;
it is modelled from the spec: each coordinate is packed fixed-width (four
bytes here) big-endian so that lexicographic byte order equals the
documented traversal order, channel-major then Z-major. -/

/-- Fixed-width big-endian base-256 digits of a natural. -/
def digitsBE : Nat → Nat → List Nat
  | 0, _ => []
  | k + 1, n => n / 256 ^ k :: digitsBE k (n % 256 ^ k)

/-- Value of a big-endian digit list. -/
def valueBE : List Nat → Nat
  | [] => 0
  | b :: bs => b * 256 ^ bs.length + valueBE bs

/-- Byte-lexicographic strict order on byte strings. -/
def bytesLt : List Nat → List Nat → Bool
  | [], [] => false
  | [], _ :: _ => true
  | _ :: _, [] => false
  | a :: as, b :: bs => a < b || (a == b && bytesLt as bs)

/-- Modelled from the spec: the byte encoding of `dvid.IndexZYX`, Z-major. -/
def encodeZYX (z y x : Nat) : List Nat :=
  digitsBE 4 z ++ digitsBE 4 y ++ digitsBE 4 x

/-- Modelled from the spec: the byte encoding of `dvid.IndexCZYX` — the
channel number ahead of the spatial index. -/
def encodeCZYX (c z y x : Nat) : List Nat :=
  digitsBE 4 c ++ encodeZYX z y x

/-- Decode an `IndexCZYX` byte string back to its coordinate tuple. -/
def decodeCZYX (l : List Nat) : Option (Nat × Nat × Nat × Nat) :=
  if l.length = 16 then
    some (valueBE (l.take 4), valueBE ((l.drop 4).take 4),
          valueBE ((l.drop 8).take 4), valueBE (l.drop 12))
  else none

/-- The documented traversal order on (channel, z, y, x) tuples:
channel-major, then Z-major. -/
def tupleLtCZYX (a b : Nat × Nat × Nat × Nat) : Prop :=
  a.1 < b.1 ∨ (a.1 = b.1 ∧ (a.2.1 < b.2.1 ∨ (a.2.1 = b.2.1 ∧
    (a.2.2.1 < b.2.2.1 ∨ (a.2.2.1 = b.2.2.1 ∧ a.2.2.2 < b.2.2.2)))))

instance : DecidablePred (fun p : (Nat × Nat × Nat × Nat) × Nat × Nat × Nat × Nat =>
    tupleLtCZYX p.1 p.2) := by
  intro p
  unfold tupleLtCZYX
  infer_instance

/-- Non-strict byte-lexicographic order. -/
def bytesLe (a b : List Nat) : Bool := !(bytesLt b a)

/-- A range scan over a set of keys: ascending filter of the keys lying in
[lo, hi), modelling the storage engine's `RangeScan` restricted to the keys
present. -/
def rangeScan (keys : List (List Nat)) (lo hi : List Nat) : List (List Nat) :=
  keys.filter (fun k => bytesLe lo k && bytesLt k hi)

/-- An inclusive range of block coordinates. -/
def iterRange (a b : Nat) : List Nat := List.range' a (b + 1 - a)

/-- Modelled from the spec: `dvid.NewIndexCZYXIterator(channelNum, begBlock,
endBlock)` (the `dvid` package is absent from this tree), returned by
`Channel.IndexIterator` (`multichan16.go` lines 176-192): it walks the block
range for the one fixed channel in Z-major order, emitting `IndexCZYX`
encodings. -/
def NewIndexCZYXIterator (c : Nat) (begZ begY begX endZ endY endX : Nat) :
    List (List Nat) :=
  (iterRange begZ endZ).flatMap (fun z =>
    (iterRange begY endY).flatMap (fun y =>
      (iterRange begX endX).map (fun x => encodeCZYX c z y x)))

/-! ### UUID prefix resolution

`MatchingUUID` is called by `server/rpc.go` (lines 121, 152) but defined in
the absent `server` support code; modelled from the spec: it scans all known
UUIDs across all datasets, counting those the prefix matches and remembering
the last match. -/

/-- Modelled from the spec: `MatchingUUID(prefix)` resolves a UUID prefix
string against all known UUIDs; it succeeds exactly on one match and fails
with `NoMatch` or `AmbiguousUUID` otherwise.  UUIDs are hex strings,
modelled as character lists. -/
def MatchingUUID (pre : List Char) (uuids : List (List Char)) :
    Except DvidError (List Char) :=
  let scan := uuids.foldl
    (fun (acc : Nat × List Char) u =>
      if pre.isPrefixOf u then (acc.1 + 1, u) else acc) (0, [])
  if scan.1 > 1 then .error .AmbiguousUUID
  else if scan.1 = 0 then .error .NoMatch
  else .ok scan.2

/-! ### multichan16 composite construction

Embedding of `Data.storeComposite` (`multichan16.go` lines 464-531).  Byte
buffers are modelled as total functions from offsets to byte values; the
composite buffer is `channels[0].Data()` itself (the source passes that very
slice to `voxels.NewVoxels`), so the channel-0 normalization pass reads the
buffer it is writing. -/

/-- A byte buffer, addressed by offset. -/
def Buf : Type := Nat → Nat

/-- Point update of a byte buffer. -/
def bufWrite (b : Buf) (j v : Nat) : Buf := fun k => if k = j then v else b k

/-- `d.ByteOrder.Uint16` over two bytes, for either byte order. -/
def u16 (le : Bool) (b0 b1 : Nat) : Nat := if le then b0 + 256 * b1 else 256 * b0 + b1

/-- The 16-bit value of pixel `i` of a channel's byte slice
(`d.ByteOrder.Uint16(data[beg : beg+2])` with `beg = 2*i`). -/
def chanValue (le : Bool) (data : List Nat) (i : Nat) : Nat :=
  u16 le (data.getD (2 * i) 0) (data.getD (2 * i + 1) 0)

/-- First pass of `storeComposite`: channel minimum, starting from 0xFFFF. -/
def chanMin (le : Bool) (data : List Nat) (pixels : Nat) : Nat :=
  (List.range pixels).foldl (fun m i => Nat.min m (chanValue le data i)) 0xFFFF

/-- First pass of `storeComposite`: channel maximum, starting from 0. -/
def chanMax (le : Bool) (data : List Nat) (pixels : Nat) : Nat :=
  (List.range pixels).foldl (fun m i => Nat.max m (chanValue le data i)) 0

/-- `window := int(max[c] - min[c]); if window == 0 { window = 1 }` —
the subtraction is on uint16, hence the mod 2^16 wrap. -/
def windowOf (le : Bool) (data : List Nat) (pixels : Nat) : Nat :=
  let w := (chanMax le data pixels + 65536 - chanMin le data pixels) % 65536
  if w = 0 then 1 else w

/-- One normalized composite byte:
`normalized := 255 * int(value-min[c]) / window; if normalized > 255 {
normalized = 255 }` with the uint16 wrap of `value - min[c]`. -/
def normPixel (minc window value : Nat) : Nat :=
  Nat.min (255 * ((value + 65536 - minc) % 65536) / window) 255

/-- Second pass of `storeComposite` for one channel `c`: write the
normalized value of each pixel at offset `c + 4*i`.  Channel 0's data slice
is the composite buffer itself, so its reads see earlier writes. -/
def passChannel (le : Bool) (chan0Aliased : Bool) (data : List Nat)
    (minc window pixels c : Nat) (buf : Buf) : Buf :=
  (List.range pixels).foldl
    (fun b i =>
      let value := if chan0Aliased then u16 le (b (2 * i)) (b (2 * i + 1))
                   else chanValue le data i
      bufWrite b (c + 4 * i) (normPixel minc window value))
    buf

/-- `Data.storeComposite`: composite buffer construction — min/max pass,
per-channel normalization into interleaved RGBA offsets, then the alpha
pass writing 255 at every offset `3 + 4*i`. -/
def storeComposite (le : Bool) (chans : List (List Nat)) (pixels : Nat) : Buf :=
  let buf0 : Buf := fun j => (chans.getD 0 []).getD j 0
  let numChannels := Nat.min chans.length 3
  let pass2 := (List.range numChannels).foldl
    (fun b c =>
      let data := chans.getD c []
      passChannel le (c == 0) data (chanMin le data pixels)
        (windowOf le data pixels) pixels c b)
    buf0
  (List.range pixels).foldl (fun b i => bufWrite b (3 + 4 * i) 255) pass2

/-! ### multichan16 HTTP channel-name resolution

Embedding of the channel-number block of `Data.DoHTTP`
(`multichan16.go` lines 298-316). -/

/-- `strings.TrimPrefix`: drop the prefix when present, else return the
string unchanged. -/
def trimPrefix (s pre : List Char) : List Char :=
  if pre.isPrefixOf s then s.drop pre.length else s

/-- Digits of a decimal natural, as characters (for the channel-name range
in the error message `Use names '%s1' -> '%s%d'`). -/
def natChars (n : Nat) : List Char := Nat.toDigits 10 n

/-- Decimal digit-string value, failing on empty input or any non-digit. -/
def parseNatDigits : List Char → Option Nat
  | [] => none
  | ds =>
      if ds.all Char.isDigit then
        some (ds.foldl (fun acc ch => 10 * acc + (ch.toNat - 48)) 0)
      else none

/-- `strconv.ParseInt(s, 10, 32)`: optional sign, decimal digits, result
within the int32 range; `none` models a non-nil error. -/
def parseInt32 (s : List Char) : Option Int :=
  let signed : Bool × List Char :=
    match s with
    | '+' :: rest => (false, rest)
    | '-' :: rest => (true, rest)
    | _ => (false, s)
  match parseNatDigits signed.2 with
  | none => none
  | some n =>
      let v : Int := if signed.1 then -(n : Int) else (n : Int)
      if -(2 ^ 31) ≤ v ∧ v ≤ 2 ^ 31 - 1 then some v else none

/-- Outcome of the channel-number block of `DoHTTP`: an accepted channel
number, a `strconv` failure, or the rejection naming the valid
channel-name range. -/
inductive ChannelParse where
  | channel (n : Int)
  | parseFailure
  | channelRangeFailure (numChannels : Nat) (minName maxName : List Char)
  deriving DecidableEq, Repr

/-- The channel-number block of `Data.DoHTTP`: trim the data name off the
URL's name part; an empty remainder addresses channel 0 (the composite); a
remainder `strconv.ParseInt` rejects is a parse error; a parsed number
above `NumChannels` is rejected with the message naming names
`<name>1` through `<name><NumChannels>`. -/
def parseChannelFromName (dataName : List Char) (numChannels : Nat)
    (urlName : List Char) : ChannelParse :=
  let channumStr := trimPrefix urlName dataName
  if channumStr.length = 0 then .channel 0
  else
    match parseInt32 channumStr with
    | none => .parseFailure
    | some n =>
        if n > (numChannels : Int) then
          .channelRangeFailure numChannels (dataName ++ ['1'])
            (dataName ++ natChars numChannels)
        else .channel n

/-! ## Theorems -/

theorem decSeg_encSeg (xs rest : List Nat) :
    decSeg (encSeg xs ++ rest) = some (xs, rest) := by
  simp [encSeg, decSeg, List.take_left, List.drop_left]

theorem decodeNode_encodeNode (n : Node) (rest : List Nat) :
    decodeNode (encodeNode n ++ rest) = some (n, rest) := by
  show decodeNode (n.versionID :: n.uuid ::
    ((encSeg n.parents ++ encSeg n.children ++ [if n.locked then 1 else 0]) ++ rest)) = _
  rw [List.append_assoc, List.append_assoc]
  simp only [decodeNode, decSeg_encSeg, List.singleton_append]
  have hb : ((if n.locked then 1 else 0 : Nat) == 1) = n.locked := by cases n.locked <;> rfl
  simp [hb]

theorem decodeNodes_encode (ns : List Node) (rest : List Nat) :
    decodeNodes ns.length ((ns.map encodeNode).flatten ++ rest) = some (ns, rest) := by
  induction ns with
  | nil => simp [decodeNodes]
  | cons a t ih =>
      simp only [List.map_cons, List.flatten_cons, List.length_cons, List.append_assoc]
      simp [decodeNodes, decodeNode_encodeNode, ih]

theorem decodePairs_encode (ps : List (Nat × Nat)) (rest : List Nat) :
    decodePairs ps.length ((ps.map (fun p => [p.1, p.2])).flatten ++ rest) = some (ps, rest) := by
  induction ps with
  | nil => simp [decodePairs]
  | cons a t ih => simp [decodePairs, ih]

theorem deserializeDAG_serializeDAG (d : VersionDAG) :
    deserializeDAG (serializeDAG d) = some d := by
  show deserializeDAG (d.newVersionID :: d.nodes.length ::
    ((d.nodes.map encodeNode).flatten
      ++ d.versionMap.length :: (d.versionMap.map (fun p => [p.1, p.2])).flatten)) = _
  simp only [deserializeDAG, decodeNodes_encode]
  have h := decodePairs_encode d.versionMap []
  rw [List.append_nil] at h
  simp [h]

theorem decodeDatasets_encode (ds : List (Nat × VersionDAG)) (rest : List Nat) :
    decodeDatasets ds.length ((ds.map encodeDataset).flatten ++ rest) = some (ds, rest) := by
  induction ds with
  | nil => simp [decodeDatasets]
  | cons a t ih =>
      simp only [List.map_cons, List.flatten_cons, List.length_cons, List.append_assoc]
      show decodeDatasets (t.length + 1)
        (a.1 :: (encSeg (serializeDAG a.2) ++ ((t.map encodeDataset).flatten ++ rest))) = _
      simp [decodeDatasets, decSeg_encSeg, deserializeDAG_serializeDAG, ih]

theorem deserializeService_serializeService (s : Service) :
    deserializeService (serializeService s) = some s := by
  show deserializeService (s.newDatasetID :: s.newUUID :: s.datasets.length
    :: (s.datasets.map encodeDataset).flatten) = _
  have h := decodeDatasets_encode s.datasets []
  rw [List.append_nil] at h
  simp [deserializeService, h]

/-- C1: after any sequence of NewDataset/NewVersion/Lock operations, the
serialized service record reloads to the identical state: the reloaded
datasets (hence node counts, parent/child structure and lock flags) equal
the originals, the reloaded record re-serializes byte-identically, and the
JSON description of all datasets is unchanged across the save/reload
cycle; moreover every VersionDAG record reloads to the identical DAG. -/
theorem dag_persistence_roundtrip (ops : List DvidOp) :
    deserializeService (serializeService (Service.applyOps initService ops)) =
      some (Service.applyOps initService ops) ∧
    serializeService ((deserializeService (serializeService
        (Service.applyOps initService ops))).getD initService) =
      serializeService (Service.applyOps initService ops) ∧
    datasetsAllJSON ((deserializeService (serializeService
        (Service.applyOps initService ops))).getD initService) =
      datasetsAllJSON (Service.applyOps initService ops) ∧
    ((deserializeService (serializeService
        (Service.applyOps initService ops))).getD initService).datasets =
      (Service.applyOps initService ops).datasets ∧
    (∀ d : VersionDAG, deserializeDAG (serializeDAG d) = some d) := by
  refine ⟨deserializeService_serializeService _, ?_, ?_, ?_,
    fun d => deserializeDAG_serializeDAG d⟩ <;>
    rw [deserializeService_serializeService] <;> rfl

/-- C2 counterexample: the test `TestNewDAG` pins the freshly created DAG's
next-ID counter `NewVersionID` at 1, so it is not 2 as the claim states. -/
theorem newVersionDAG_counter_not_two :
    (NewVersionDAG 0).newVersionID = 1 ∧ ¬ (NewVersionDAG 0).newVersionID = 2 := by
  exact ⟨rfl, by decide⟩

/-- C2 (amended): `NewVersionDAG` takes no inputs beyond the root UUID,
always succeeds, and returns a DAG containing exactly one root Node whose
VersionLocalID is 0, with the next-ID counter equal to 1, and with
VersionMap and Nodes each containing exactly one entry. -/
theorem newVersionDAG_spec (u : Nat) :
    (NewVersionDAG u).nodes.length = 1 ∧
    (NewVersionDAG u).versionMap.length = 1 ∧
    (NewVersionDAG u).newVersionID = 1 ∧
    (NewVersionDAG u).nodes =
      [{ versionID := 0, uuid := u, parents := [], children := [], locked := false }] ∧
    (NewVersionDAG u).versionMap = [(u, 0)] := by
  exact ⟨rfl, rfl, rfl, rfl, rfl⟩

theorem find?_lock_map (ns : List Node) (vid : Nat)
    (h : ns.any (fun n => n.versionID == vid) = true) :
    ∃ m, (ns.map (fun n => if n.versionID = vid then { n with locked := true } else n)).find?
      (fun n => n.versionID == vid) = some m ∧ m.locked = true := by
  induction ns with
  | nil => simp at h
  | cons a t ih =>
      by_cases ha : a.versionID = vid
      · exact ⟨{ a with locked := true }, by simp [List.find?, ha], rfl⟩
      · have ht : t.any (fun n => n.versionID == vid) = true := by
          simp only [List.any_cons, Bool.or_eq_true, beq_iff_eq] at h
          rcases h with h | h
          · exact absurd h ha
          · simpa using h
        obtain ⟨m, hm, hl⟩ := ih ht
        refine ⟨m, ?_, hl⟩
        simp only [List.map_cons, if_neg ha, List.find?]
        have : (a.versionID == vid) = false := by simpa using ha
        rw [this]
        exact hm

theorem versionFromUUID_mem (dag : VersionDAG) (uuid vid : Nat)
    (h : dag.versionFromUUID uuid = some vid) :
    ∃ p ∈ dag.versionMap, p.2 = vid := by
  unfold VersionDAG.versionFromUUID at h
  cases hf : dag.versionMap.find? (fun p => p.1 == uuid) with
  | none => rw [hf] at h; simp at h
  | some p =>
      rw [hf] at h
      simp only [Option.map_some'] at h
      exact ⟨p, List.mem_of_find?_eq_some hf, by simpa using h⟩

/-- C3: after `Lock(v)` the write guard on `v` fails with `VersionLocked`
while `NewVersion(v)` still succeeds and locking again is not an error and
leaves the DAG unchanged; `Lock` fails only with `UnknownVersion`, exactly
when `v` does not resolve. -/
theorem lock_enforcement (dag : VersionDAG) (uuid cu : Nat) (hwf : dag.wf = true) :
    (∀ dag', dag.Lock uuid = .ok dag' →
      dag'.checkWrite uuid = .error .VersionLocked ∧
      (∃ r, dag'.NewVersion cu uuid = .ok r) ∧
      dag'.Lock uuid = .ok dag') ∧
    (∀ e, dag.Lock uuid = .error e →
      e = .UnknownVersion ∧ dag.versionFromUUID uuid = none) := by
  constructor
  · intro dag' hlock
    cases hres : dag.versionFromUUID uuid with
    | none => simp [VersionDAG.Lock, hres] at hlock
    | some vid =>
        have hdag' : dag' = { dag with
            nodes := dag.nodes.map fun n =>
              if n.versionID = vid then { n with locked := true } else n } := by
          simp only [VersionDAG.Lock, hres, Except.ok.injEq] at hlock
          exact hlock.symm
        have hres' : dag'.versionFromUUID uuid = some vid := by
          rw [hdag']; exact hres
        obtain ⟨p, hp, hpvid⟩ := versionFromUUID_mem dag uuid vid hres
        have hany : dag.nodes.any (fun n => n.versionID == vid) = true := by
          have := List.all_eq_true.mp hwf p hp
          simpa [hpvid] using this
        obtain ⟨m, hm, hml⟩ := find?_lock_map dag.nodes vid hany
        have hnode : dag'.nodeByVersion vid = some m := by
          rw [hdag']; exact hm
        have hmap : (dag'.nodes.map fun n =>
            if n.versionID = vid then { n with locked := true } else n) = dag'.nodes := by
          rw [hdag']
          simp only [List.map_map]
          apply List.map_congr_left
          intro n _
          by_cases hn : n.versionID = vid <;> simp [hn]
        refine ⟨?_, ?_, ?_⟩
        · simp only [VersionDAG.checkWrite, VersionDAG.IsLocked, hres', hnode, hml]
        · refine ⟨(dag'.newVersionID,
            { newVersionID := dag'.newVersionID + 1
            , nodes := (dag'.nodes.map fun n =>
                if n.versionID = vid then { n with children := n.children ++ [dag'.newVersionID] } else n)
                ++ [{ versionID := dag'.newVersionID, uuid := cu, parents := [vid]
                    , children := [], locked := false }]
            , versionMap := dag'.versionMap ++ [(cu, dag'.newVersionID)] }), ?_⟩
          simp only [VersionDAG.NewVersion, hres']
        · simp only [VersionDAG.Lock, hres', hmap]
  · intro e herr
    cases hres : dag.versionFromUUID uuid with
    | none => simp [VersionDAG.Lock, hres] at herr; exact ⟨herr.symm, rfl⟩
    | some vid => simp [VersionDAG.Lock, hres] at herr

/-- C3 witness: in a freshly created DAG locked at its root, the write
guard rejects the root with `VersionLocked`. -/
theorem lock_enforcement_witness :
    (NewVersionDAG 5).wf = true ∧
    ((((NewVersionDAG 5).Lock 5).toOption.getD (NewVersionDAG 5)).checkWrite 5 =
      .error .VersionLocked) := by
  refine ⟨by decide, ?_⟩
  have h := (lock_enforcement (NewVersionDAG 5) 5 7 (by decide)).1
  exact (h ((((NewVersionDAG 5).Lock 5).toOption.getD (NewVersionDAG 5))) (by decide)).1

theorem newVersion_ok_shape (dag : VersionDAG) (cu pu vid : Nat) (dag' : VersionDAG)
    (h : dag.NewVersion cu pu = .ok (vid, dag')) :
    vid = dag.newVersionID ∧ dag'.newVersionID = dag.newVersionID + 1 := by
  cases hres : dag.versionFromUUID pu with
  | none => simp [VersionDAG.NewVersion, hres] at h
  | some pv =>
      simp only [VersionDAG.NewVersion, hres, Except.ok.injEq, Prod.mk.injEq] at h
      exact ⟨h.1.symm, by rw [← h.2]⟩

theorem runNewVersions_lower (dag : VersionDAG) (reqs : List (Nat × Nat)) :
    ∀ i ∈ (dag.runNewVersions reqs).1, dag.newVersionID ≤ i := by
  induction reqs generalizing dag with
  | nil => intro i hi; simp [VersionDAG.runNewVersions] at hi
  | cons r t ih =>
      intro i hi
      unfold VersionDAG.runNewVersions at hi
      cases hstep : dag.NewVersion r.1 r.2 with
      | error e => rw [hstep] at hi; exact ih dag i hi
      | ok vd =>
          obtain ⟨vid, dag'⟩ := vd
          obtain ⟨hvid, hctr⟩ := newVersion_ok_shape dag r.1 r.2 vid dag' hstep
          rw [hstep] at hi
          simp only [List.mem_cons] at hi
          rcases hi with rfl | hi
          · exact Nat.le_of_eq hvid.symm
          · have := ih dag' i hi
            omega

theorem runNewVersions_sorted (dag : VersionDAG) (reqs : List (Nat × Nat)) :
    List.Pairwise (· < ·) (dag.runNewVersions reqs).1 := by
  induction reqs generalizing dag with
  | nil => simp [VersionDAG.runNewVersions]
  | cons r t ih =>
      unfold VersionDAG.runNewVersions
      cases hstep : dag.NewVersion r.1 r.2 with
      | error e => exact ih dag
      | ok vd =>
          obtain ⟨vid, dag'⟩ := vd
          obtain ⟨hvid, hctr⟩ := newVersion_ok_shape dag r.1 r.2 vid dag' hstep
          refine List.Pairwise.cons ?_ (ih dag')
          intro b hb
          have := runNewVersions_lower dag' t b hb
          omega

/-- C4: along any sequence of `NewVersion` calls against one DAG, the
returned VersionLocalIDs are strictly increasing, hence pairwise distinct,
and never collide with any VersionLocalID already present in the DAG —
IDs are never reused. -/
theorem versionID_uniqueness (dag : VersionDAG) (reqs : List (Nat × Nat))
    (hinv : dag.idsBelowCounter = true) :
    List.Pairwise (· < ·) (dag.runNewVersions reqs).1 ∧
    List.Pairwise (· ≠ ·) (dag.runNewVersions reqs).1 ∧
    (∀ i ∈ (dag.runNewVersions reqs).1, ∀ n ∈ dag.nodes, n.versionID ≠ i) := by
  refine ⟨runNewVersions_sorted dag reqs, ?_, ?_⟩
  · exact (runNewVersions_sorted dag reqs).imp Nat.ne_of_lt
  · intro i hi n hn
    have hlow := runNewVersions_lower dag reqs i hi
    have hbelow := List.all_eq_true.mp hinv n hn
    simp only [decide_eq_true_eq] at hbelow
    omega

/-- C4 witness: three `NewVersion` calls against a fresh DAG (two children
of the root, one grandchild) return the distinct IDs 1, 2, 3. -/
theorem versionID_uniqueness_witness :
    (NewVersionDAG 0).idsBelowCounter = true ∧
    ((NewVersionDAG 0).runNewVersions [(1, 0), (2, 0), (3, 1)]).1 = [1, 2, 3] ∧
    List.Pairwise (· ≠ ·) ((NewVersionDAG 0).runNewVersions [(1, 0), (2, 0), (3, 1)]).1 := by
  refine ⟨by decide, by decide, ?_⟩
  exact (versionID_uniqueness (NewVersionDAG 0) [(1, 0), (2, 0), (3, 1)] (by decide)).2.1

theorem runNewDatasets_lower (s : Service) (k : Nat) :
    ∀ p ∈ (s.runNewDatasets k).1, s.newUUID ≤ p.1 ∧ s.newDatasetID ≤ p.2 := by
  induction k generalizing s with
  | zero => intro p hp; simp [Service.runNewDatasets] at hp
  | succ m ih =>
      intro p hp
      unfold Service.runNewDatasets at hp
      simp only [List.mem_cons] at hp
      rcases hp with rfl | hp
      · exact ⟨Nat.le_refl _, Nat.le_refl _⟩
      · have := ih (s.NewDataset).2.2 p hp
        simp only [Service.NewDataset] at this
        omega

/-- C5: `NewDataset()` allocates the next DatasetLocalID, registers a fresh
VersionDAG for it rooted at a fresh UUID, and returns (rootUUID,
DatasetLocalID); along any number of `NewDataset` calls, the returned root
UUIDs are pairwise distinct and the returned DatasetLocalIDs are pairwise
distinct. -/
theorem newDataset_distinct (s : Service) (k : Nat) :
    (s.NewDataset).1 = s.newUUID ∧
    (s.NewDataset).2.1 = s.newDatasetID ∧
    (s.NewDataset).2.2.datasets = s.datasets ++ [(s.newDatasetID, NewVersionDAG s.newUUID)] ∧
    List.Pairwise (fun p q => p.1 ≠ q.1 ∧ p.2 ≠ q.2) (s.runNewDatasets k).1 := by
  refine ⟨rfl, rfl, rfl, ?_⟩
  induction k generalizing s with
  | zero => simp [Service.runNewDatasets]
  | succ m ih =>
      unfold Service.runNewDatasets
      refine List.Pairwise.cons ?_ (ih (s.NewDataset).2.2)
      intro q hq
      have := runNewDatasets_lower (s.NewDataset).2.2 m q hq
      simp only [Service.NewDataset] at this
      constructor <;> [skip; skip] <;> simp only [Service.NewDataset] <;> omega

theorem digitsBE_length (k n : Nat) : (digitsBE k n).length = k := by
  induction k generalizing n with
  | zero => rfl
  | succ m ih => simp [digitsBE, ih]

theorem valueBE_digitsBE (k n : Nat) (h : n < 256 ^ k) :
    valueBE (digitsBE k n) = n := by
  induction k generalizing n with
  | zero => simp [digitsBE, valueBE]; omega
  | succ m ih =>
      have hm : 0 < 256 ^ m := Nat.pos_pow_of_pos m (by norm_num)
      have hmod : n % 256 ^ m < 256 ^ m := Nat.mod_lt _ hm
      simp only [digitsBE, valueBE, digitsBE_length, ih _ hmod]
      have hdm := Nat.div_add_mod n (256 ^ m)
      rw [Nat.mul_comm] at hdm
      omega

theorem digitsBE_eq_iff (k a b : Nat) (ha : a < 256 ^ k) (hb : b < 256 ^ k) :
    digitsBE k a = digitsBE k b ↔ a = b := by
  constructor
  · intro h
    have := congrArg valueBE h
    rwa [valueBE_digitsBE k a ha, valueBE_digitsBE k b hb] at this
  · intro h; rw [h]

theorem lt_iff_div_lt_or (m a b : Nat) (hm : 0 < m) :
    a < b ↔ (a / m < b / m ∨ (a / m = b / m ∧ a % m < b % m)) := by
  constructor
  · intro h
    rcases Nat.lt_or_ge (a / m) (b / m) with h1 | h1
    · exact Or.inl h1
    · have h3 : a / m ≤ b / m := Nat.div_le_div_right (Nat.le_of_lt h)
      have h4 : a / m = b / m := Nat.le_antisymm h3 h1
      refine Or.inr ⟨h4, ?_⟩
      have hda := Nat.div_add_mod a m
      have hdb := Nat.div_add_mod b m
      rw [← h4] at hdb
      omega
  · intro h
    have hda := Nat.div_add_mod a m
    have hdb := Nat.div_add_mod b m
    rcases h with h1 | ⟨h1, h2⟩
    · have hr : a % m < m := Nat.mod_lt _ hm
      have hmul : m * (a / m + 1) ≤ m * (b / m) := Nat.mul_le_mul_left m h1
      have hexp : m * (a / m + 1) = m * (a / m) + m := by ring
      omega
    · rw [← h1] at hdb
      omega

theorem bytesLt_digitsBE_iff (k a b : Nat) (ha : a < 256 ^ k) (hb : b < 256 ^ k) :
    bytesLt (digitsBE k a) (digitsBE k b) = true ↔ a < b := by
  induction k generalizing a b with
  | zero =>
      simp only [digitsBE, bytesLt]
      constructor
      · intro h; cases h
      · intro h; omega
  | succ m ih =>
      have hm : 0 < 256 ^ m := Nat.pos_pow_of_pos m (by norm_num)
      have hamod : a % 256 ^ m < 256 ^ m := Nat.mod_lt _ hm
      have hbmod : b % 256 ^ m < 256 ^ m := Nat.mod_lt _ hm
      simp only [digitsBE, bytesLt, Bool.or_eq_true, Bool.and_eq_true,
        decide_eq_true_eq, beq_iff_eq]
      rw [ih _ _ hamod hbmod]
      rw [lt_iff_div_lt_or (256 ^ m) a b hm]

theorem bytesLt_append_iff (A B A' B' : List Nat) (h : A.length = A'.length) :
    bytesLt (A ++ B) (A' ++ B') = true ↔
      (bytesLt A A' = true ∨ (A = A' ∧ bytesLt B B' = true)) := by
  induction A generalizing A' with
  | nil =>
      cases A' with
      | nil => simp [bytesLt]
      | cons a' t' => simp at h
  | cons a t ih =>
      cases A' with
      | nil => simp at h
      | cons a' t' =>
          simp only [List.cons_append, bytesLt, Bool.or_eq_true, Bool.and_eq_true,
            decide_eq_true_eq, beq_iff_eq, List.cons.injEq, List.append_eq]
          rw [ih t' (by simpa using h)]
          tauto

theorem take_len (A B : List Nat) (n : Nat) (h : A.length = n) : (A ++ B).take n = A := by
  rw [← h, List.take_left]

theorem drop_len (A B : List Nat) (n : Nat) (h : A.length = n) : (A ++ B).drop n = B := by
  rw [← h, List.drop_left]

theorem encodeCZYX_assoc (c z y x : Nat) :
    encodeCZYX c z y x =
      digitsBE 4 c ++ (digitsBE 4 z ++ (digitsBE 4 y ++ digitsBE 4 x)) := by
  simp [encodeCZYX, encodeZYX, List.append_assoc]

theorem pow32_conv : (2 : Nat) ^ 32 = 256 ^ 4 := by norm_num

theorem decodeCZYX_encodeCZYX (c z y x : Nat)
    (hc : c < 2 ^ 32) (hz : z < 2 ^ 32) (hy : y < 2 ^ 32) (hx : x < 2 ^ 32) :
    decodeCZYX (encodeCZYX c z y x) = some (c, z, y, x) := by
  rw [pow32_conv] at hc hz hy hx
  have hlen : (encodeCZYX c z y x).length = 16 := by
    simp [encodeCZYX, encodeZYX, digitsBE_length]
  have h4 : (encodeCZYX c z y x).drop 4 =
      digitsBE 4 z ++ (digitsBE 4 y ++ digitsBE 4 x) := by
    rw [encodeCZYX_assoc]
    exact drop_len _ _ 4 (digitsBE_length 4 c)
  have h8 : (encodeCZYX c z y x).drop 8 = digitsBE 4 y ++ digitsBE 4 x := by
    have : (encodeCZYX c z y x).drop 8 = ((encodeCZYX c z y x).drop 4).drop 4 := by
      rw [List.drop_drop]
    rw [this, h4]
    exact drop_len _ _ 4 (digitsBE_length 4 z)
  have h12 : (encodeCZYX c z y x).drop 12 = digitsBE 4 x := by
    have : (encodeCZYX c z y x).drop 12 = ((encodeCZYX c z y x).drop 8).drop 4 := by
      rw [List.drop_drop]
    rw [this, h8]
    exact drop_len _ _ 4 (digitsBE_length 4 y)
  have ht0 : (encodeCZYX c z y x).take 4 = digitsBE 4 c := by
    rw [encodeCZYX_assoc]
    exact take_len _ _ 4 (digitsBE_length 4 c)
  unfold decodeCZYX
  rw [if_pos hlen, ht0, h4, h8, h12]
  rw [take_len _ _ 4 (digitsBE_length 4 z), take_len _ _ 4 (digitsBE_length 4 y)]
  rw [valueBE_digitsBE 4 c hc, valueBE_digitsBE 4 z hz,
    valueBE_digitsBE 4 y hy, valueBE_digitsBE 4 x hx]

theorem encodeCZYX_lt_iff (c z y x c' z' y' x' : Nat)
    (hc : c < 2 ^ 32) (hz : z < 2 ^ 32) (hy : y < 2 ^ 32) (hx : x < 2 ^ 32)
    (hc' : c' < 2 ^ 32) (hz' : z' < 2 ^ 32) (hy' : y' < 2 ^ 32) (hx' : x' < 2 ^ 32) :
    bytesLt (encodeCZYX c z y x) (encodeCZYX c' z' y' x') = true ↔
      tupleLtCZYX (c, z, y, x) (c', z', y', x') := by
  rw [pow32_conv] at hc hz hy hx hc' hz' hy' hx'
  rw [encodeCZYX_assoc, encodeCZYX_assoc]
  rw [bytesLt_append_iff _ _ _ _ (by simp [digitsBE_length])]
  rw [bytesLt_append_iff _ _ _ _ (by simp [digitsBE_length])]
  rw [bytesLt_append_iff _ _ _ _ (by simp [digitsBE_length])]
  rw [bytesLt_digitsBE_iff 4 c c' hc hc', bytesLt_digitsBE_iff 4 z z' hz hz',
    bytesLt_digitsBE_iff 4 y y' hy hy', bytesLt_digitsBE_iff 4 x x' hx hx']
  rw [digitsBE_eq_iff 4 c c' hc hc', digitsBE_eq_iff 4 z z' hz hz',
    digitsBE_eq_iff 4 y y' hy hy']
  unfold tupleLtCZYX
  tauto

/-- C6: within the addressable coordinate range, decoding undoes the index
encoding; the encoding is total-order-preserving (a tuple earlier in the
channel-major, Z-major traversal order encodes to a byte-lexicographically
smaller key) and stable (equal coordinates yield identical bytes). -/
theorem index_encoding_correct (c z y x c' z' y' x' : Nat)
    (hc : c < 2 ^ 32) (hz : z < 2 ^ 32) (hy : y < 2 ^ 32) (hx : x < 2 ^ 32)
    (hc' : c' < 2 ^ 32) (hz' : z' < 2 ^ 32) (hy' : y' < 2 ^ 32) (hx' : x' < 2 ^ 32) :
    decodeCZYX (encodeCZYX c z y x) = some (c, z, y, x) ∧
    (tupleLtCZYX (c, z, y, x) (c', z', y', x') →
      bytesLt (encodeCZYX c z y x) (encodeCZYX c' z' y' x') = true) ∧
    ((c, z, y, x) = (c', z', y', x') →
      encodeCZYX c z y x = encodeCZYX c' z' y' x') := by
  refine ⟨decodeCZYX_encodeCZYX c z y x hc hz hy hx, ?_, ?_⟩
  · intro h
    exact (encodeCZYX_lt_iff c z y x c' z' y' x' hc hz hy hx hc' hz' hy' hx').mpr h
  · intro h
    obtain ⟨h1, h2, h3, h4⟩ : c = c' ∧ z = z' ∧ y = y' ∧ x = x' := by
      simpa [Prod.ext_iff] using h
    rw [h1, h2, h3, h4]

/-- C6 witness: roundtrip and ordering at the concrete coordinates
(1, 2, 3, 4) and (1, 2, 3, 5). -/
theorem index_encoding_correct_witness :
    decodeCZYX (encodeCZYX 1 2 3 4) = some (1, 2, 3, 4) ∧
    bytesLt (encodeCZYX 1 2 3 4) (encodeCZYX 1 2 3 5) = true := by
  have h := index_encoding_correct 1 2 3 4 1 2 3 5 (by norm_num) (by norm_num)
    (by norm_num) (by norm_num) (by norm_num) (by norm_num) (by norm_num) (by norm_num)
  exact ⟨h.1, h.2.1 (by simp [tupleLtCZYX])⟩

/-- C7: the channel number leads the multichannel index, so the indices of
one channel form one contiguous byte range: every index the channel's
iterator emits starts with the channel's 4-byte prefix, a `RangeScan`
bounded to channel `c`'s prefix range admits an encoded index only when its
channel is `c`, and the indices of a smaller channel all precede those of a
larger channel (no interleaving). -/
theorem multichannel_locality
    (c c' z y x z' y' x' begZ begY begX endZ endY endX : Nat)
    (keys : List (List Nat))
    (hc1 : c + 1 < 2 ^ 32) (hz : z < 2 ^ 32) (hy : y < 2 ^ 32) (hx : x < 2 ^ 32)
    (hc' : c' < 2 ^ 32) (hz' : z' < 2 ^ 32) (hy' : y' < 2 ^ 32) (hx' : x' < 2 ^ 32) :
    ((encodeCZYX c z y x).take 4 = digitsBE 4 c) ∧
    (∀ idx ∈ NewIndexCZYXIterator c begZ begY begX endZ endY endX,
      idx.take 4 = digitsBE 4 c) ∧
    (encodeCZYX c' z' y' x' ∈
        rangeScan keys (encodeCZYX c 0 0 0) (encodeCZYX (c + 1) 0 0 0) → c' = c) ∧
    (c' < c → bytesLt (encodeCZYX c' z' y' x') (encodeCZYX c z y x) = true) := by
  have hc : c < 2 ^ 32 := by omega
  have hz0 : (0 : Nat) < 2 ^ 32 := by norm_num
  have hpfx : ∀ z0 y0 x0 : Nat, (encodeCZYX c z0 y0 x0).take 4 = digitsBE 4 c := by
    intro z0 y0 x0
    rw [encodeCZYX_assoc]
    exact take_len _ _ 4 (digitsBE_length 4 c)
  refine ⟨hpfx z y x, ?_, ?_, ?_⟩
  · intro idx hidx
    simp only [NewIndexCZYXIterator, List.mem_flatMap, List.mem_map] at hidx
    obtain ⟨z0, _, y0, _, x0, _, rfl⟩ := hidx
    exact hpfx z0 y0 x0
  · intro hmem
    have hpred := (List.mem_filter.mp hmem).2
    simp only [Bool.and_eq_true, bytesLe, Bool.not_eq_true'] at hpred
    obtain ⟨hlo, hhi⟩ := hpred
    have hhi' := (encodeCZYX_lt_iff c' z' y' x' (c + 1) 0 0 0
      hc' hz' hy' hx' hc1 hz0 hz0 hz0).mp hhi
    have hlo' : ¬ tupleLtCZYX (c', z', y', x') (c, 0, 0, 0) := by
      intro hcon
      have := (encodeCZYX_lt_iff c' z' y' x' c 0 0 0
        hc' hz' hy' hx' hc hz0 hz0 hz0).mpr hcon
      rw [hlo] at this
      cases this
    unfold tupleLtCZYX at hhi' hlo'
    simp only at hhi' hlo'
    omega
  · intro hlt
    exact (encodeCZYX_lt_iff c' z' y' x' c z y x hc' hz' hy' hx' hc hz hy hx).mpr
      (Or.inl hlt)

/-- C7 witness: channel 1's prefix leads its index, and a channel-0 index
precedes every channel-1 index. -/
theorem multichannel_locality_witness :
    (encodeCZYX 1 0 0 0).take 4 = digitsBE 4 1 ∧
    bytesLt (encodeCZYX 0 5 5 5) (encodeCZYX 1 0 0 0) = true := by
  have h := multichannel_locality 1 0 0 0 0 5 5 5 0 0 0 0 0 0 []
    (by norm_num) (by norm_num) (by norm_num) (by norm_num)
    (by norm_num) (by norm_num) (by norm_num) (by norm_num)
  exact ⟨h.1, h.2.2.2 (by norm_num)⟩

theorem matchFold_count (pre : List Char) (uuids : List (List Char)) :
    ∀ acc : Nat × List Char,
      (uuids.foldl (fun acc u => if pre.isPrefixOf u then (acc.1 + 1, u) else acc) acc).1 =
        acc.1 + uuids.countP (fun u => pre.isPrefixOf u) := by
  induction uuids with
  | nil => intro acc; simp
  | cons u t ih =>
      intro acc
      by_cases hu : pre.isPrefixOf u
      · simp only [List.foldl_cons, if_pos hu, List.countP_cons, hu, if_pos]
        rw [ih]
        simp [Nat.add_comm, Nat.add_assoc, Nat.add_left_comm]
      · simp only [List.foldl_cons, if_neg hu, List.countP_cons]
        rw [ih]
        simp [hu]

theorem matchFold_nomatch (pre : List Char) (uuids : List (List Char))
    (h : uuids.countP (fun u => pre.isPrefixOf u) = 0) :
    ∀ acc : Nat × List Char,
      uuids.foldl (fun acc u => if pre.isPrefixOf u then (acc.1 + 1, u) else acc) acc = acc := by
  induction uuids with
  | nil => intro acc; simp
  | cons u t ih =>
      intro acc
      simp only [List.countP_cons] at h
      by_cases hu : pre.isPrefixOf u
      · simp [hu] at h
      · simp only [List.foldl_cons, if_neg hu]
        exact ih (by omega) acc

theorem matchFold_unique (pre : List Char) (uuids : List (List Char))
    (h : uuids.countP (fun u => pre.isPrefixOf u) = 1) :
    ∀ acc : Nat × List Char,
      (uuids.foldl (fun acc u => if pre.isPrefixOf u then (acc.1 + 1, u) else acc) acc).2 ∈ uuids ∧
      pre.isPrefixOf
        ((uuids.foldl (fun acc u => if pre.isPrefixOf u then (acc.1 + 1, u) else acc) acc).2) = true ∧
      (∀ w ∈ uuids, pre.isPrefixOf w = true →
        w = (uuids.foldl (fun acc u => if pre.isPrefixOf u then (acc.1 + 1, u) else acc) acc).2) := by
  induction uuids with
  | nil => simp at h
  | cons u t ih =>
      intro acc
      simp only [List.countP_cons] at h
      by_cases hu : pre.isPrefixOf u
      · have ht : t.countP (fun u => pre.isPrefixOf u) = 0 := by
          simp only [hu, if_pos] at h; omega
        simp only [List.foldl_cons, if_pos hu, matchFold_nomatch pre t ht]
        refine ⟨List.mem_cons_self u t, hu, ?_⟩
        intro w hw hpw
        rcases List.mem_cons.mp hw with rfl | hwt
        · rfl
        · exact absurd hpw (by
            have := List.countP_eq_zero.mp ht w hwt
            simpa using this)
      · have ht : t.countP (fun u => pre.isPrefixOf u) = 1 := by
          simp only [hu, if_neg, if_false] at h
          simpa using h
        simp only [List.foldl_cons, if_neg hu]
        obtain ⟨hmem, hpre, huniq⟩ := ih ht acc
        refine ⟨List.mem_cons_of_mem u hmem, hpre, ?_⟩
        intro w hw hpw
        rcases List.mem_cons.mp hw with rfl | hwt
        · exact absurd hpw (by simpa using hu)
        · exact huniq w hwt hpw

/-- C8: `MatchingUUID(prefix)` succeeds exactly when the prefix matches
exactly one known UUID, returning that UUID; with zero matches it fails
with `NoMatch` and with more than one match it fails with
`AmbiguousUUID`. -/
theorem matchingUUID_spec (pre : List Char) (uuids : List (List Char)) :
    (uuids.countP (fun u => pre.isPrefixOf u) = 0 →
      MatchingUUID pre uuids = .error .NoMatch) ∧
    (uuids.countP (fun u => pre.isPrefixOf u) = 1 →
      ∃ u, MatchingUUID pre uuids = .ok u ∧ u ∈ uuids ∧ pre.isPrefixOf u = true ∧
        ∀ w ∈ uuids, pre.isPrefixOf w = true → w = u) ∧
    (1 < uuids.countP (fun u => pre.isPrefixOf u) →
      MatchingUUID pre uuids = .error .AmbiguousUUID) := by
  have hcount := matchFold_count pre uuids (0, [])
  refine ⟨?_, ?_, ?_⟩
  · intro h0
    unfold MatchingUUID
    simp only [hcount]
    simp [h0]
  · intro h1
    obtain ⟨hmem, hpre, huniq⟩ := matchFold_unique pre uuids h1 (0, [])
    refine ⟨_, ?_, hmem, hpre, huniq⟩
    unfold MatchingUUID
    simp only [hcount]
    simp [h1]
  · intro h2
    unfold MatchingUUID
    simp only [hcount, Nat.zero_add]
    rw [if_pos h2]

/-- C8 witness: the spec scenario — UUIDs c78a0 and da0a4; prefix c7
resolves uniquely, an ambiguous prefix and an unmatched prefix fail. -/
theorem matchingUUID_spec_witness :
    MatchingUUID ("c7".toList) ["c78a0".toList, "da0a4".toList] = .ok ("c78a0".toList) ∧
    MatchingUUID ("c".toList) ["c78a0".toList, "c90a4".toList] = .error .AmbiguousUUID ∧
    MatchingUUID ("f".toList) ["c78a0".toList, "da0a4".toList] = .error .NoMatch := by
  refine ⟨?_, ?_, ?_⟩
  · obtain ⟨u, hok, hmem, hpre, huniq⟩ :=
      (matchingUUID_spec ("c7".toList) ["c78a0".toList, "da0a4".toList]).2.1 (by decide)
    have hu : ("c78a0".toList) = u := huniq _ (by decide) (by decide)
    rw [← hu] at hok
    exact hok
  · exact (matchingUUID_spec ("c".toList) ["c78a0".toList, "c90a4".toList]).2.2 (by decide)
  · exact (matchingUUID_spec ("f".toList) ["c78a0".toList, "da0a4".toList]).1 (by decide)

theorem foldl_buf_bound {α : Type} (l : List α) (f : Buf → α → Buf) (buf : Buf)
    (hb : ∀ j, buf j ≤ 255)
    (hf : ∀ b a, (∀ j, b j ≤ 255) → ∀ j, f b a j ≤ 255) :
    ∀ j, (l.foldl f buf) j ≤ 255 := by
  induction l generalizing buf with
  | nil => exact hb
  | cons a t ih => exact ih (f buf a) (hf buf a hb)

theorem foldl_buf_preserve (l : List Nat) (g : Nat → Nat) (buf : Buf) (j : Nat)
    (h : buf j = 255) :
    (l.foldl (fun b k => bufWrite b (g k) 255) buf) j = 255 := by
  induction l generalizing buf with
  | nil => exact h
  | cons a t ih =>
      apply ih
      show (if j = g a then 255 else buf j) = 255
      split
      · rfl
      · exact h

theorem foldl_buf_write (l : List Nat) (g : Nat → Nat) (buf : Buf) (i : Nat)
    (h : i ∈ l) :
    (l.foldl (fun b k => bufWrite b (g k) 255) buf) (g i) = 255 := by
  induction l generalizing buf with
  | nil => cases h
  | cons a t ih =>
      rcases List.mem_cons.mp h with rfl | hmem
      · exact foldl_buf_preserve t g _ _ (by simp [bufWrite])
      · exact ih _ hmem

theorem normPixel_le (minc window value : Nat) : normPixel minc window value ≤ 255 :=
  Nat.min_le_right _ 255

theorem windowOf_pos (le : Bool) (data : List Nat) (pixels : Nat) :
    1 ≤ windowOf le data pixels := by
  unfold windowOf
  by_cases h : (chanMax le data pixels + 65536 - chanMin le data pixels) % 65536 = 0
  · simp [h]
  · simp [h]
    omega

theorem windowOf_flat (le : Bool) (data : List Nat) (pixels : Nat)
    (h : chanMax le data pixels = chanMin le data pixels) :
    windowOf le data pixels = 1 := by
  unfold windowOf
  simp only [h]
  simp [Nat.add_sub_cancel_left, Nat.mod_self]

theorem getD_le255 (L : List Nat) (j : Nat) (h : ∀ b ∈ L, b ≤ 255) :
    L.getD j 0 ≤ 255 := by
  induction L generalizing j with
  | nil => simp [List.getD]
  | cons a t ih =>
      cases j with
      | zero => exact h a (List.mem_cons_self a t)
      | succ k =>
          simpa [List.getD] using ih k (fun b hb => h b (List.mem_cons_of_mem a hb))

theorem passChannel_bound (le chan0Aliased : Bool) (data : List Nat)
    (minc window pixels c : Nat) (buf : Buf) (hb : ∀ j, buf j ≤ 255) :
    ∀ j, passChannel le chan0Aliased data minc window pixels c buf j ≤ 255 := by
  unfold passChannel
  apply foldl_buf_bound _ _ _ hb
  intro b i hble j
  unfold bufWrite
  split
  · exact normPixel_le _ _ _
  · exact hble j

/-- C9: in `storeComposite`, the per-channel normalization divisor is never
zero (a flat channel's window is forced to 1), every normalized composite
byte is clamped to fit a uint8, the whole composite buffer stays within
byte range, and after composition every alpha byte (offset `3 + 4*i` for
each pixel `i`) equals 255. -/
theorem storeComposite_safety (le : Bool) (chans : List (List Nat)) (pixels : Nat)
    (hbytes : ∀ ch ∈ chans, ∀ b ∈ ch, b ≤ 255) :
    (∀ data pix, 1 ≤ windowOf le data pix) ∧
    (∀ data pix, chanMax le data pix = chanMin le data pix →
      windowOf le data pix = 1) ∧
    (∀ minc window value, normPixel minc window value ≤ 255) ∧
    (∀ j, storeComposite le chans pixels j ≤ 255) ∧
    (∀ i, i < pixels → storeComposite le chans pixels (3 + 4 * i) = 255) := by
  have hbuf0 : ∀ j, (fun j => (chans.getD 0 []).getD j 0 : Buf) j ≤ 255 := by
    intro j
    apply getD_le255
    intro b hb
    cases chans with
    | nil => cases hb
    | cons ch t => exact hbytes ch (List.mem_cons_self ch t) b hb
  have hpass2 : ∀ j, (List.range (Nat.min chans.length 3)).foldl
      (fun b c =>
        let data := chans.getD c []
        passChannel le (c == 0) data (chanMin le data pixels)
          (windowOf le data pixels) pixels c b)
      (fun j => (chans.getD 0 []).getD j 0) j ≤ 255 := by
    apply foldl_buf_bound _ _ _ hbuf0
    intro b c hble
    exact passChannel_bound le (c == 0) (chans.getD c [])
      (chanMin le (chans.getD c []) pixels)
      (windowOf le (chans.getD c []) pixels) pixels c b hble
  refine ⟨fun data pix => windowOf_pos le data pix,
    fun data pix h => windowOf_flat le data pix h,
    fun minc window value => normPixel_le minc window value, ?_, ?_⟩
  · intro j
    unfold storeComposite
    apply foldl_buf_bound _ _ _ hpass2
    intro b i hble k
    unfold bufWrite
    split
    · exact Nat.le_refl 255
    · exact hble k
  · intro i hi
    unfold storeComposite
    exact foldl_buf_write (List.range pixels) (fun i => 3 + 4 * i) _ i
      (List.mem_range.mpr hi)

/-- C9 witness: a two-channel, two-pixel volume — both alpha bytes of the
composite equal 255. -/
theorem storeComposite_safety_witness :
    storeComposite true [[10, 0, 20, 0], [30, 0, 5, 0]] 2 3 = 255 ∧
    storeComposite true [[10, 0, 20, 0], [30, 0, 5, 0]] 2 7 = 255 := by
  constructor
  · exact (storeComposite_safety true [[10, 0, 20, 0], [30, 0, 5, 0]] 2
      (by decide)).2.2.2.2 0 (by decide)
  · exact (storeComposite_safety true [[10, 0, 20, 0], [30, 0, 5, 0]] 2
      (by decide)).2.2.2.2 1 (by decide)

theorem parseInt32_nil : parseInt32 [] = none := rfl

theorem isPrefixOf_self (s : List Char) : s.isPrefixOf s = true := by
  induction s with
  | nil => rfl
  | cons a t ih => simp [List.isPrefixOf, ih]

theorem trimPrefix_self (s : List Char) : trimPrefix s s = [] := by
  unfold trimPrefix
  rw [if_pos (isPrefixOf_self s), List.drop_length]

/-- C10: in `DoHTTP`, a data name with no numeric suffix addresses channel
0 (the composite); a parsed numeric suffix above `NumChannels` is rejected
with the error naming the valid channel-name range `<name>1` through
`<name><NumChannels>` before any read or write; a suffix `ParseInt`
rejects yields a parse error. -/
theorem doHTTP_channel_name (dataName : List Char) (numChannels : Nat)
    (urlName : List Char) :
    (parseChannelFromName dataName numChannels dataName = .channel 0) ∧
    (∀ n : Int, parseInt32 (trimPrefix urlName dataName) = some n →
      (numChannels : Int) < n →
      parseChannelFromName dataName numChannels urlName =
        .channelRangeFailure numChannels (dataName ++ ['1'])
          (dataName ++ natChars numChannels)) ∧
    (parseInt32 (trimPrefix urlName dataName) = none →
      trimPrefix urlName dataName ≠ [] →
      parseChannelFromName dataName numChannels urlName = .parseFailure) := by
  refine ⟨?_, ?_, ?_⟩
  · unfold parseChannelFromName
    simp [trimPrefix_self]
  · intro n hparse hgt
    have hne : trimPrefix urlName dataName ≠ [] := by
      intro hnil
      rw [hnil, parseInt32_nil] at hparse
      cases hparse
    unfold parseChannelFromName
    simp only [hparse]
    rw [if_neg (by simpa [List.length_eq_zero] using hne)]
    rw [if_pos hgt]
  · intro hparse hne
    unfold parseChannelFromName
    simp only [hparse]
    rw [if_neg (by simpa [List.length_eq_zero] using hne)]

/-- C10 witness: data `mydata` with 3 channels — bare name gives channel 0,
suffix 5 is rejected naming `mydata1` through `mydata3`, suffix `X` is a
parse error. -/
theorem doHTTP_channel_name_witness :
    parseChannelFromName ("mydata".toList) 3 ("mydata".toList) = .channel 0 ∧
    parseChannelFromName ("mydata".toList) 3 ("mydata5".toList) =
      .channelRangeFailure 3 ("mydata1".toList) ("mydata3".toList) ∧
    parseChannelFromName ("mydata".toList) 3 ("mydataX".toList) = .parseFailure := by
  refine ⟨(doHTTP_channel_name ("mydata".toList) 3 ("mydata".toList)).1, ?_, ?_⟩
  · have h := (doHTTP_channel_name ("mydata".toList) 3 ("mydata5".toList)).2.1 5
      (by decide) (by decide)
    have e1 : ("mydata".toList ++ ['1']) = "mydata1".toList := by decide
    have e2 : ("mydata".toList ++ natChars 3) = "mydata3".toList := by decide
    rw [e1, e2] at h
    exact h
  · exact (doHTTP_channel_name ("mydata".toList) 3 ("mydataX".toList)).2.2
      (by decide) (by decide)

end Dvid
